import Mathlib

set_option maxRecDepth 10000

/-!
Verification of the degiroasync request-orchestration layer.

Shallow embedding of the relevant Python source into Lean:

* `degiroasync.core.helpers.camelcase_to_snake`, `camelcase_dict_to_snake`
* `degiroasync.core.helpers.lru_cache_timed`
* `degiroasync.core.helpers.ThrottlingClient` (throttle decorator and
  reference-counted aenter/aexit)
* `degiroasync.core.helpers.check_response`
* `degiroasync.api.product.ProductFactory.init_batch`, `_create_batch`,
  `__products_from_attrs`
* `degiroasync.api.product.search_product` / `_search_one` pagination
* `degiroasync.api.session.login` and the login-failure lockout

Numbers model timestamps (rationals for wall-clock instants used by the
memoizer, naturals for the abstract clocks of the transition systems);
machine floating point is idealised as exact arithmetic, and each Python
call that reads the clock is idealised as happening at a single instant.
-/

namespace Degiroasync

/-! ### camelcase_to_snake (core/helpers.py lines 123-171)

Python source:

    def camelcase_to_snake(text):
        if text.isupper():
            return text
        return joined map: replace each uppercase c by underscore + c.lower()

String.isupper in Python is: at least one cased character and no cased
character is lowercase.  The embedding models the ASCII fragment with
the Lean Char primitives. -/

/-- Model of a cased character (ASCII fragment of the Python notion). -/
def pyCased (c : Char) : Bool := c.isUpper || c.isLower

/-- Embedding of the Python str.isupper predicate on a character list:
at least one cased character, and no lowercase character. -/
def pyIsUpper (l : List Char) : Bool :=
  l.any pyCased && l.all (fun c => !c.isLower)

/-- Per-character step of camelcase_to_snake: an uppercase character is
replaced by an underscore followed by its lowercase form, every other
character is kept unchanged. -/
def snakeChar (c : Char) : List Char :=
  if c.isUpper then ['_', c.toLower] else [c]

/-- Character-list version of camelcase_to_snake. -/
def camelSnakeChars (l : List Char) : List Char :=
  if pyIsUpper l then l else l.flatMap snakeChar

/-- Embedding of degiroasync.core.helpers.camelcase_to_snake. -/
def camelcase_to_snake (s : String) : String :=
  ⟨camelSnakeChars s.data⟩

theorem char_toNat_ofNat (m : ℕ) (h : m.isValidChar) :
    (Char.ofNat m).toNat = m := by
  rw [Char.ofNat, dif_pos h]
  rfl

theorem toLower_isUpper_false (c : Char) (h : c.isUpper = true) :
    c.toLower.isUpper = false := by
  have hval : c.val ≥ 65 ∧ c.val ≤ 90 := by
    simpa [Char.isUpper, Bool.and_eq_true, decide_eq_true_eq] using h
  have h65 : (65 : ℕ) ≤ c.toNat := by
    have h1 : (65 : UInt32) ≤ c.val := hval.1
    rw [UInt32.le_def, BitVec.le_def] at h1
    simpa using h1
  have h90 : c.toNat ≤ 90 := by
    have h1 : c.val ≤ (90 : UInt32) := hval.2
    rw [UInt32.le_def, BitVec.le_def] at h1
    simpa using h1
  have hcond : c.toNat ≥ 65 ∧ c.toNat ≤ 90 := ⟨h65, h90⟩
  rw [Char.toLower, if_pos hcond]
  have hvalid : (c.toNat + 32).isValidChar := by
    constructor
    omega
  have hofNat : (Char.ofNat (c.toNat + 32)).toNat = c.toNat + 32 :=
    char_toNat_ofNat _ hvalid
  simp only [Char.isUpper]
  have hlast : ¬ ((Char.ofNat (c.toNat + 32)).val ≤ 90) := by
    rw [UInt32.le_def, BitVec.le_def]
    have : (Char.ofNat (c.toNat + 32)).val.toBitVec.toNat = c.toNat + 32 :=
      hofNat
    simp only [this]
    simp
    omega
  simp [hlast]

theorem snakeChar_no_upper (c : Char) :
    ∀ d ∈ snakeChar c, d.isUpper = false := by
  intro d hd
  by_cases h : c.isUpper
  · simp only [snakeChar, if_pos h, List.mem_cons, List.mem_singleton] at hd
    rcases hd with h1 | h2 | h3
    · subst h1; decide
    · subst h2; exact toLower_isUpper_false c h
    · cases h3
  · simp only [snakeChar, if_neg h, List.mem_singleton] at hd
    subst hd
    exact Bool.eq_false_iff.mpr h

theorem bind_snakeChar_no_upper (l : List Char) :
    ∀ d ∈ l.flatMap snakeChar, d.isUpper = false := by
  intro d hd
  rcases List.mem_flatMap.mp hd with ⟨c, _, hdc⟩
  exact snakeChar_no_upper c d hdc

theorem pyIsUpper_of_no_upper (l : List Char)
    (h : ∀ d ∈ l, d.isUpper = false) : pyIsUpper l = false := by
  by_cases hlow : ∃ d ∈ l, d.isLower = true
  · rcases hlow with ⟨d, hdl, hdlow⟩
    have hall : l.all (fun c => !c.isLower) = false := by
      rw [List.all_eq_false]
      exact ⟨d, hdl, by simp [hdlow]⟩
    simp [pyIsUpper, hall]
  · push_neg at hlow
    have hany : l.any pyCased = false := by
      rw [List.any_eq_false]
      intro d hdl
      simp [pyCased, h d hdl, Bool.eq_false_iff.mpr (hlow d hdl)]
    simp [pyIsUpper, hany]

theorem bind_snakeChar_fixed (l : List Char)
    (h : ∀ d ∈ l, d.isUpper = false) : l.flatMap snakeChar = l := by
  induction l with
  | nil => rfl
  | cons c rest ih =>
    have hc : c.isUpper = false := h c (List.mem_cons_self c rest)
    have hrest : ∀ d ∈ rest, d.isUpper = false :=
      fun d hd => h d (List.mem_cons_of_mem c hd)
    simp [List.flatMap_cons, snakeChar, hc, ih hrest]

theorem camelSnakeChars_idem (l : List Char) :
    camelSnakeChars (camelSnakeChars l) = camelSnakeChars l := by
  by_cases h : pyIsUpper l = true
  · simp [camelSnakeChars, h]
  · have h' : pyIsUpper l = false := Bool.eq_false_iff.mpr h
    have hres : camelSnakeChars l = l.flatMap snakeChar := by
      simp [camelSnakeChars, h']
    have hnoup : ∀ d ∈ l.flatMap snakeChar, d.isUpper = false :=
      bind_snakeChar_no_upper l
    have hfalse : pyIsUpper (l.flatMap snakeChar) = false :=
      pyIsUpper_of_no_upper _ hnoup
    rw [hres, camelSnakeChars, if_neg (by simp [hfalse])]
    exact bind_snakeChar_fixed _ hnoup

/-! Model of a Python dict payload for camelcase_dict_to_snake: values are
either opaque non-dict leaves or nested dicts (an ordered association
list of string keys). -/

mutual
/-- Model of a Python value appearing in an API payload dict. -/
inductive PyVal : Type where
  | leaf : Nat → PyVal
  | dict : PyDict → PyVal
/-- Model of a Python dict with string keys as an ordered association list. -/
inductive PyDict : Type where
  | nil : PyDict
  | cons : String → PyVal → PyDict → PyDict
end

mutual
/-- Embedding of degiroasync.core.helpers.camelcase_dict_to_snake with
recursive=True: every key is converted with camelcase_to_snake and dict
values are converted recursively, other values are kept. -/
def camelcase_dict_to_snake : PyDict → PyDict
  | .nil => .nil
  | .cons k v d =>
      .cons (camelcase_to_snake k) (camelSnakeVal v) (camelcase_dict_to_snake d)
/-- Value-level helper of camelcase_dict_to_snake. -/
def camelSnakeVal : PyVal → PyVal
  | .leaf n => .leaf n
  | .dict d => .dict (camelcase_dict_to_snake d)
end

theorem camelcase_to_snake_idem_str (s : String) :
    camelcase_to_snake (camelcase_to_snake s) = camelcase_to_snake s := by
  simp [camelcase_to_snake, camelSnakeChars_idem]

mutual
theorem camelcase_dict_to_snake_idem :
    ∀ d : PyDict,
      camelcase_dict_to_snake (camelcase_dict_to_snake d)
        = camelcase_dict_to_snake d
  | .nil => rfl
  | .cons k v d => by
      simp [camelcase_dict_to_snake, camelcase_to_snake_idem_str k,
        camelSnakeVal_idem v, camelcase_dict_to_snake_idem d]
theorem camelSnakeVal_idem :
    ∀ v : PyVal, camelSnakeVal (camelSnakeVal v) = camelSnakeVal v
  | .leaf _ => rfl
  | .dict d => by simp [camelSnakeVal, camelcase_dict_to_snake_idem d]
end

/-- Claim C10: camelcase_to_snake is idempotent; an all-uppercase string
(in the Python str.isupper sense) is a fixed point, any other result
contains no uppercase character; consequently camelcase_dict_to_snake
applied twice to a dict equals applying it once. -/
theorem camelcase_to_snake_idempotent :
    (∀ s : String,
        camelcase_to_snake (camelcase_to_snake s) = camelcase_to_snake s)
    ∧ (∀ s : String, pyIsUpper s.data = true → camelcase_to_snake s = s)
    ∧ (∀ s : String, pyIsUpper s.data = false →
        ∀ c ∈ (camelcase_to_snake s).data, c.isUpper = false)
    ∧ (∀ d : PyDict,
        camelcase_dict_to_snake (camelcase_dict_to_snake d)
          = camelcase_dict_to_snake d) := by
  refine ⟨camelcase_to_snake_idem_str, ?_, ?_, camelcase_dict_to_snake_idem⟩
  · intro s h
    cases s with
    | mk l => simp [camelcase_to_snake, camelSnakeChars, h]
  · intro s h c hc
    cases s with
    | mk l =>
      simp only [camelcase_to_snake, camelSnakeChars, h] at hc
      simp only [Bool.false_eq_true, if_false] at hc
      exact bind_snakeChar_no_upper l c hc

/-- Witness for C10 at concrete inputs: the camelCase example from the
source docstring and the all-caps fixed point. -/
theorem camelcase_to_snake_idempotent_witness :
    camelcase_to_snake (camelcase_to_snake "iAmCamelCase")
      = camelcase_to_snake "iAmCamelCase"
    ∧ camelcase_to_snake "ALL_CAPS" = "ALL_CAPS" :=
  ⟨camelcase_to_snake_idempotent.1 "iAmCamelCase",
   camelcase_to_snake_idempotent.2.1 "ALL_CAPS" (by decide)⟩

/-! ### lru_cache_timed (core/helpers.py lines 52-120)

Python source (identical logic for the synchronous and the coroutine
branch, the latter only adds await plumbing around the same cache):

    first_start = []
    def _out(args):
        if not len(first_start): first_start.append(time.time())
        if seconds is None: time_key = 1
        else: time_key = (time.time() - first_start[0]) // seconds
        return _in(time_key, args)      # _in is lru_cache(maxsize)(func)

Wall-clock instants are modelled as rationals and each call is
idealised as happening at one instant `now`. -/

/-- State of one lru_cache_timed wrapper: the recorded epoch (the
first_start list, empty or holding the first call instant) and the LRU
cache of the inner _in function, most recently used first. -/
structure MemoState (α β : Type) where
  firstStart : Option ℚ
  cache : List ((ℚ × α) × β)

/-- Embedding of the time_key computation: constant 1 when seconds is
None, otherwise the floor division of the elapsed time by seconds. -/
def timeKey (seconds : Option ℚ) (t0 now : ℚ) : ℚ :=
  match seconds with
  | none => 1
  | some s => ⌊(now - t0) / s⌋

/-- Result of one call through the wrapper: the returned value, the new
wrapper state, whether the wrapped function was invoked (cache miss) and
the cache key used. -/
structure MemoCall (α β : Type) where
  value : β
  state : MemoState α β
  invoked : Bool
  keyUsed : ℚ × α

/-- Key used by a call arriving at instant `now` in wrapper state `st`:
the epoch is the recorded first_start if set, otherwise this very call
fixes it to `now`. -/
def memoKey (seconds : Option ℚ) (now : ℚ) (st : MemoState α β) (a : α) :
    ℚ × α :=
  (timeKey seconds (st.firstStart.getD now) now, a)

/-- Embedding of one call of the function wrapped by lru_cache_timed:
fix the epoch on the first call, compute the time bucket, then consult
the inner functools lru_cache keyed by (time_key, args): a hit returns
the cached value (moving the entry to the front), a miss invokes the
wrapped function and inserts, evicting beyond maxsize. -/
def lruCacheTimedCall [DecidableEq α] (f : α → β) (maxsize : ℕ)
    (seconds : Option ℚ) (now : ℚ) (st : MemoState α β) (a : α) :
    MemoCall α β :=
  match st.cache.find? (fun e => e.1 = memoKey seconds now st a) with
  | some e =>
      { value := e.2
        state := { firstStart := some (st.firstStart.getD now)
                   cache := (memoKey seconds now st a, e.2)
                     :: st.cache.filter
                          (fun e2 => e2.1 ≠ memoKey seconds now st a) }
        invoked := false
        keyUsed := memoKey seconds now st a }
  | none =>
      { value := f a
        state := { firstStart := some (st.firstStart.getD now)
                   cache := ((memoKey seconds now st a, f a)
                     :: st.cache).take maxsize }
        invoked := true
        keyUsed := memoKey seconds now st a }

/-- Initial state of a freshly decorated function: no epoch, empty cache. -/
def memoInit (α β : Type) : MemoState α β := { firstStart := none, cache := [] }

theorem memo_keyUsed [DecidableEq α] (f : α → β) (m : ℕ) (s : Option ℚ)
    (now : ℚ) (st : MemoState α β) (a : α) :
    (lruCacheTimedCall f m s now st a).keyUsed = memoKey s now st a := by
  unfold lruCacheTimedCall
  split <;> rfl

theorem floor_div_eq_zero {x W : ℚ} (hW : 0 < W) (h0 : 0 ≤ x) (h1 : x < W) :
    ⌊x / W⌋ = 0 := by
  rw [Int.floor_eq_zero_iff]
  constructor
  · positivity
  · simpa [div_lt_one hW] using h1

theorem floor_div_pos {x W : ℚ} (hW : 0 < W) (h : W < x) : 1 ≤ ⌊x / W⌋ := by
  have : (1 : ℚ) ≤ x / W := (le_div_iff₀ hW).mpr (by linarith)
  exact_mod_cast Int.le_floor.mpr (by exact_mod_cast this)

/-- Claim C6: the first call through lru_cache_timed fixes the epoch t0
and every call at time t with seconds = W is keyed by the bucket
floor((t - t0) / W) together with its arguments; a second call with the
same arguments inside the first call bucket (t1 ≤ t2 < t1 + W) returns
the cached value without re-invoking, and a call made more than W after
t0 re-invokes.  The synchronous and coroutine branches of the source
share this logic verbatim, so the one embedding covers both. -/
theorem lru_cache_timed_bucketing [DecidableEq α] (f : α → β) (maxsize : ℕ)
    (W t1 t2 t3 : ℚ) (a : α) (hW : 0 < W) (hms : 1 ≤ maxsize)
    (h12 : t1 ≤ t2) (h2 : t2 - t1 < W) (h3 : W < t3 - t1) :
    (∀ (st : MemoState α β) (t0 now : ℚ) (b : α),
        st.firstStart = some t0 →
        (lruCacheTimedCall f maxsize (some W) now st b).keyUsed
          = ((⌊(now - t0) / W⌋ : ℚ), b))
    ∧ (lruCacheTimedCall f maxsize (some W) t1 (memoInit α β) a).invoked = true
    ∧ (lruCacheTimedCall f maxsize (some W) t2
        (lruCacheTimedCall f maxsize (some W) t1 (memoInit α β) a).state
        a).invoked = false
    ∧ (lruCacheTimedCall f maxsize (some W) t2
        (lruCacheTimedCall f maxsize (some W) t1 (memoInit α β) a).state
        a).value
      = (lruCacheTimedCall f maxsize (some W) t1 (memoInit α β) a).value
    ∧ (lruCacheTimedCall f maxsize (some W) t3
        (lruCacheTimedCall f maxsize (some W) t2
          (lruCacheTimedCall f maxsize (some W) t1 (memoInit α β) a).state
          a).state a).invoked = true := by
  have hkey1 : timeKey (some W) t1 t1 = (0 : ℚ) := by
    simp [timeKey]
  have hkey2 : timeKey (some W) t1 t2 = (0 : ℚ) := by
    simp only [timeKey]
    rw [floor_div_eq_zero hW (by linarith) h2]
    simp
  have hkey3ne : timeKey (some W) t1 t3 ≠ (0 : ℚ) := by
    simp only [timeKey]
    have h1 := floor_div_pos hW h3
    intro hcontra
    rw [Int.cast_eq_zero] at hcontra
    omega
  have hr1 : lruCacheTimedCall f maxsize (some W) t1 (memoInit α β) a
      = { value := f a
          state := { firstStart := some t1
                     cache := [(((0 : ℚ), a), f a)] }
          invoked := true
          keyUsed := ((0 : ℚ), a) } := by
    unfold lruCacheTimedCall
    simp only [memoInit, memoKey, Option.getD_none, List.find?_nil, hkey1]
    rcases Nat.exists_eq_add_of_le hms with ⟨m, hm⟩
    subst hm
    simp [List.take_cons]
  have hr2 : lruCacheTimedCall f maxsize (some W) t2
      (lruCacheTimedCall f maxsize (some W) t1 (memoInit α β) a).state a
      = { value := f a
          state := { firstStart := some t1
                     cache := [(((0 : ℚ), a), f a)] }
          invoked := false
          keyUsed := ((0 : ℚ), a) } := by
    rw [hr1]
    unfold lruCacheTimedCall
    simp [memoKey, hkey2]
  refine ⟨?_, ?_, ?_, ?_, ?_⟩
  · intro st t0 now b hst
    rw [memo_keyUsed]
    simp [memoKey, hst, timeKey]
  · rw [hr1]
  · rw [hr2]
  · rw [hr2, hr1]
  · rw [hr2]
    unfold lruCacheTimedCall
    rw [List.find?_cons_of_neg]
    · rfl
    · simp [memoKey]
      exact fun hcontra => hkey3ne hcontra.symm

/-- Witness for C6 at concrete inputs: W = 1, calls at times 0, 1/2, 2,
wrapping the successor function on naturals with the default maxsize. -/
theorem lru_cache_timed_bucketing_witness :
    ((lruCacheTimedCall (fun n : ℕ => n + 1) 128 (some 1) (1/2)
        (lruCacheTimedCall (fun n : ℕ => n + 1) 128 (some 1) 0
          (memoInit ℕ ℕ) 7).state 7).invoked = false)
    ∧ ((lruCacheTimedCall (fun n : ℕ => n + 1) 128 (some 1) 2
        (lruCacheTimedCall (fun n : ℕ => n + 1) 128 (some 1) (1/2)
          (lruCacheTimedCall (fun n : ℕ => n + 1) 128 (some 1) 0
            (memoInit ℕ ℕ) 7).state 7).state 7).invoked = true) := by
  have h := lru_cache_timed_bucketing (fun n : ℕ => n + 1) 128 1 0 (1/2) 2 7
    (by norm_num) (by norm_num) (by norm_num) (by norm_num) (by norm_num)
  exact ⟨h.2.2.1, h.2.2.2.2⟩

/-! ### ThrottlingClient.__aenter__ / __aexit__ (core/helpers.py lines 469-482)

Python source:

    async def __aenter__(self):
        if self._async_client is None: self._async_client = httpx.AsyncClient(..)
        if self._client_open is None: self._client_open = await self._async_client.__aenter__()
        self._count_open += 1
        return self
    async def __aexit__(self, ..):
        self._count_open -= 1
        if self._count_open <= 0:
            await self._async_client.__aexit__(..)
            self._async_client = None
            self._client_open = None

The underlying httpx client pair (_async_client, _client_open) is set
and cleared together; it is modelled as one optional allocation
identifier, with a counter supplying fresh identifiers so that object
identity is observable. -/

/-- State of the reference-counted shared client. -/
structure ClientState where
  countOpen : ℤ
  client : Option ℕ
  nextId : ℕ
  deriving DecidableEq

/-- Initial state of a ThrottlingClient: no underlying client, count 0. -/
def clientInit : ClientState := { countOpen := 0, client := none, nextId := 0 }

/-- Embedding of ThrottlingClient.__aenter__. -/
def aenter (s : ClientState) : ClientState :=
  match s.client with
  | none => { countOpen := s.countOpen + 1, client := some s.nextId,
              nextId := s.nextId + 1 }
  | some c => { countOpen := s.countOpen + 1, client := some c,
                nextId := s.nextId }

/-- Embedding of ThrottlingClient.__aexit__. -/
def aexit (s : ClientState) : ClientState :=
  if s.countOpen - 1 ≤ 0 then
    { countOpen := s.countOpen - 1, client := none, nextId := s.nextId }
  else
    { countOpen := s.countOpen - 1, client := s.client, nextId := s.nextId }

/-- One async-context operation on the client. -/
inductive AOp : Type where
  | enter : AOp
  | close : AOp
  deriving DecidableEq

/-- Apply one operation. -/
def aStep (s : ClientState) : AOp → ClientState
  | .enter => aenter s
  | .close => aexit s

/-- Run a sequence of operations from a state. -/
def aRun (s : ClientState) (ops : List AOp) : ClientState :=
  ops.foldl aStep s

/-- Number of enters minus number of exits in an operation list. -/
def aBalance (ops : List AOp) : ℤ :=
  (ops.count AOp.enter : ℤ) - (ops.count AOp.close : ℤ)

/-- A balanced sequence: no prefix closes more often than it entered. -/
def Balanced (ops : List AOp) : Prop :=
  ∀ p : List AOp, p <+: ops → 0 ≤ aBalance p

/-- Invariant tying the open count to the underlying client. -/
def ClientInv (s : ClientState) : Prop :=
  0 ≤ s.countOpen ∧ (s.countOpen = 0 ↔ s.client = none)

theorem aBalance_append (p q : List AOp) :
    aBalance (p ++ q) = aBalance p + aBalance q := by
  simp only [aBalance, List.count_append]
  push_cast
  ring

theorem aRun_append (s : ClientState) (p q : List AOp) :
    aRun s (p ++ q) = aRun (aRun s p) q := by
  simp [aRun, List.foldl_append]

theorem aRun_count (s : ClientState) (ops : List AOp) :
    (aRun s ops).countOpen = s.countOpen + aBalance ops := by
  induction ops generalizing s with
  | nil => simp [aRun, aBalance]
  | cons op rest ih =>
    have hstep : (aStep s op).countOpen
        = s.countOpen + (if op = AOp.enter then 1 else -1) := by
      cases op with
      | enter =>
        simp only [aStep, aenter]
        cases s.client <;> simp
      | close =>
        simp only [aStep, aexit]
        by_cases h : s.countOpen - 1 ≤ 0 <;> simp [h] <;> ring
    have : aRun s (op :: rest) = aRun (aStep s op) rest := rfl
    rw [this, ih, hstep]
    cases op <;> simp [aBalance, List.count_cons] <;> ring

theorem aStep_inv (s : ClientState) (op : AOp) (hinv : ClientInv s)
    (hpost : 0 ≤ (aStep s op).countOpen) : ClientInv (aStep s op) := by
  rcases hinv with ⟨hge, hiff⟩
  cases op with
  | enter =>
    cases hc : s.client with
    | none =>
      refine ⟨by simpa [aStep, aenter, hc] using hpost, ?_⟩
      simp only [aStep, aenter, hc]
      constructor
      · intro h; omega
      · intro h; cases h
    | some c =>
      have hne : s.countOpen ≠ 0 := fun h => by
        have := hiff.mp h; rw [hc] at this; cases this
      refine ⟨by simpa [aStep, aenter, hc] using hpost, ?_⟩
      simp only [aStep, aenter, hc]
      constructor
      · intro h; omega
      · intro h; cases h
  | close =>
    simp only [aStep, aexit] at hpost ⊢
    by_cases h : s.countOpen - 1 ≤ 0
    · simp only [if_pos h] at hpost ⊢
      have h0 : s.countOpen - 1 = 0 := le_antisymm h hpost
      refine ⟨hpost, ?_⟩
      show s.countOpen - 1 = 0 ↔ (none : Option ℕ) = none
      simp [h0]
    · simp only [if_neg h] at hpost ⊢
      refine ⟨hpost, ?_⟩
      show s.countOpen - 1 = 0 ↔ s.client = none
      constructor
      · intro hcount
        omega
      · intro hclient
        have h0 : s.countOpen = 0 := hiff.mpr hclient
        omega

theorem aRun_inv (ops : List AOp) (hbal : Balanced ops) :
    ClientInv (aRun clientInit ops) := by
  induction ops using List.reverseRecOn with
  | nil =>
    exact ⟨le_refl 0, by simp [aRun, clientInit]⟩
  | append_singleton p op ih =>
    have hbp : Balanced p := fun q hq =>
      hbal q (hq.trans (List.prefix_append _ _))
    have hinv := ih hbp
    have hrunstep : aRun clientInit (p ++ [op])
        = aStep (aRun clientInit p) op := by
      rw [aRun_append]; rfl
    have hpost : 0 ≤ (aStep (aRun clientInit p) op).countOpen := by
      rw [← hrunstep, aRun_count]
      simpa [clientInit] using hbal _ (List.prefix_refl _)
    rw [hrunstep]
    exact aStep_inv _ op hinv hpost

/-- Claim C9: for every balanced sequence of async-context entries and
exits on a ThrottlingClient, the open-count and client invariant holds at
every point; an entry increments the open-count and constructs the
underlying client exactly on a 0 to 1 transition (otherwise the existing
client is kept); an exit decrements the open-count and tears the client
down exactly when the count returns to 0, keeping the shared instance
unchanged while the count stays positive. -/
theorem throttling_client_refcount :
    (∀ ops : List AOp, Balanced ops → ClientInv (aRun clientInit ops))
    ∧ (∀ s : ClientState, ClientInv s →
        (aenter s).countOpen = s.countOpen + 1
        ∧ (s.countOpen = 0 →
            s.client = none ∧ (aenter s).client = some s.nextId)
        ∧ (0 < s.countOpen → (aenter s).client = s.client))
    ∧ (∀ s : ClientState, ClientInv s → 0 < s.countOpen →
        (aexit s).countOpen = s.countOpen - 1
        ∧ ((aexit s).client = none ↔ s.countOpen = 1)
        ∧ (1 < s.countOpen → (aexit s).client = s.client)) := by
  refine ⟨aRun_inv, ?_, ?_⟩
  · intro s hinv
    rcases hinv with ⟨hge, hiff⟩
    refine ⟨?_, ?_, ?_⟩
    · unfold aenter
      cases s.client <;> simp
    · intro h0
      have hnone : s.client = none := hiff.mp h0
      rw [aenter, hnone]
      exact ⟨rfl, rfl⟩
    · intro hpos
      have hne : s.client ≠ none := fun hc => by
        have := hiff.mpr hc; omega
      rcases Option.ne_none_iff_exists.mp hne with ⟨c, hc⟩
      rw [aenter, ← hc]
  · intro s hinv hpos
    rcases hinv with ⟨hge, hiff⟩
    by_cases h : s.countOpen - 1 ≤ 0
    · have h1 : s.countOpen = 1 := by omega
      rw [aexit, if_pos h]
      exact ⟨rfl, by simp [h1]⟩
    · have hgt : 1 < s.countOpen := by omega
      rw [aexit, if_neg h]
      refine ⟨rfl, ?_, fun _ => rfl⟩
      constructor
      · intro hc
        have := hiff.mpr hc
        omega
      · intro hc
        omega

/-- Witness for C9: the nested balanced sequence enter, enter, exit,
exit preserves the invariant, and an entry from the initial state
allocates the first client instance. -/
theorem throttling_client_refcount_witness :
    ClientInv (aRun clientInit [AOp.enter, AOp.enter, AOp.close, AOp.close])
    ∧ (aenter clientInit).client = some 0 := by
  have hbal : Balanced [AOp.enter, AOp.enter, AOp.close, AOp.close] := by
    intro p hp
    have hlen : p.length ≤ 4 := by
      simpa using hp.length_le
    rcases hp with ⟨t, ht⟩
    have hp4 : p = List.take p.length
        [AOp.enter, AOp.enter, AOp.close, AOp.close] := by
      rw [← ht, List.take_left]
    interval_cases h : p.length <;> rw [hp4] <;> decide
  have h := throttling_client_refcount
  refine ⟨h.1 _ hbal, ?_⟩
  have h2 := (h.2.1 clientInit ⟨le_refl 0, by simp [clientInit]⟩).2.1 rfl
  exact h2.2

/-! ### ProductFactory.init_batch drain on exception (api/product.py lines 133-165)

Python source of the consumption loop:

    ind = 0
    try:
        for ind, batch_awt in enumerate(batches_awt):
            batch = await batch_awt
            for product in batch:
                yield product
    except Exception:
        for i in range(ind + 1, len(batches_awt)):
            await batches_awt[i]
        raise

Each scheduled chunk task is modelled by its outcome, Except an error or
a resolved product list.  The consumer is modelled by an optional throw
point: with climit = some m it throws into the generator at the yield of
the m-th entity overall.  Awaiting a faulted task re-raises its error,
also inside the drain loop, which is what the model captures. -/

/-- Error that terminates the generator: a chunk task fault or a
consumer-thrown exception. -/
inductive InitErr (E : Type) where
  | task : E → InitErr E
  | consumer : InitErr E
  deriving DecidableEq

/-- Observable outcome of running the generator to completion: the
entities delivered, one awaited flag per scheduled chunk task (in
submission order), and the propagated error if any. -/
structure InitBatchRun (E P : Type) where
  yielded : List P
  awaited : List Bool
  failed : Option (InitErr E)
  deriving DecidableEq

/-- Awaited flags produced by the drain loop over the not-yet-awaited
suffix: tasks are awaited in order until one of them re-raises, after
which the remaining tasks stay un-awaited. -/
def drainFlags : List (Except E (List P)) → List Bool
  | [] => []
  | (Except.ok _) :: rest => true :: drainFlags rest
  | (Except.error _) :: rest => true :: rest.map (fun _ => false)

/-- Error that actually propagates after the drain loop: the original
one if every drained task awaits cleanly, otherwise the first drained
fault replaces it. -/
def drainErr : List (Except E (List P)) → InitErr E → InitErr E
  | [], e => e
  | (Except.ok _) :: rest, e => drainErr rest e
  | (Except.error e2) :: _, _ => InitErr.task e2

/-- Main consumption loop of init_batch: await each chunk task in
submission order, yield its entities (the consumer may throw at overall
entity index m), and on any exception drain the remaining tasks before
propagating. -/
def goInit (climit : Option ℕ) :
    List (Except E (List P)) → ℕ → InitBatchRun E P
  | [], _ => ⟨[], [], none⟩
  | t :: rest, delivered =>
    match t with
    | Except.error e =>
        ⟨[], true :: drainFlags rest, some (drainErr rest (InitErr.task e))⟩
    | Except.ok ps =>
      match climit with
      | some m =>
          if m < delivered + ps.length then
            ⟨ps.take (m - delivered), true :: drainFlags rest,
              some (drainErr rest InitErr.consumer)⟩
          else
            let r := goInit (some m) rest (delivered + ps.length)
            ⟨ps ++ r.yielded, true :: r.awaited, r.failed⟩
      | none =>
          let r := goInit none rest (delivered + ps.length)
          ⟨ps ++ r.yielded, true :: r.awaited, r.failed⟩

/-- Run the init_batch consumption loop from the start. -/
def runInitBatch (tasks : List (Except E (List P))) (climit : Option ℕ) :
    InitBatchRun E P :=
  goInit climit tasks 0

theorem drainFlags_length (rest : List (Except E (List P))) :
    (drainFlags (E := E) (P := P) rest).length = rest.length := by
  induction rest with
  | nil => rfl
  | cons t rest ih =>
    cases t <;> simp [drainFlags, ih]

theorem goInit_awaited_length (climit : Option ℕ)
    (tasks : List (Except E (List P))) (delivered : ℕ) :
    (goInit climit tasks delivered).awaited.length = tasks.length := by
  induction tasks generalizing delivered with
  | nil => rfl
  | cons t rest ih =>
    cases t with
    | error e => simp [goInit, drainFlags_length]
    | ok ps =>
      cases climit with
      | none => simp [goInit, ih]
      | some m =>
        by_cases h : m < delivered + ps.length <;>
          simp [goInit, h, drainFlags_length, ih]

theorem drainFlags_all_ok (rest : List (Except E (List P)))
    (h : ∀ t ∈ rest, t.isOk = true) :
    (drainFlags (E := E) (P := P) rest).all (fun b => b) = true := by
  induction rest with
  | nil => rfl
  | cons t rest ih =>
    cases t with
    | error e =>
      have := h _ (List.mem_cons_self _ _)
      simp [Except.isOk, Except.toBool] at this
    | ok ps =>
      simp only [drainFlags, List.all_cons]
      exact ih (fun t ht => h t (List.mem_cons_of_mem _ ht))

theorem countP_not_ok_zero (rest : List (Except E (List P)))
    (h : rest.countP (fun t => !t.isOk) = 0) :
    ∀ t ∈ rest, t.isOk = true := by
  intro t ht
  have := List.countP_eq_zero.mp h t ht
  simpa using this

theorem goInit_all_ok_awaited (climit : Option ℕ)
    (tasks : List (Except E (List P))) (delivered : ℕ)
    (h : ∀ t ∈ tasks, t.isOk = true) :
    (goInit climit tasks delivered).awaited.all (fun b => b) = true := by
  induction tasks generalizing delivered with
  | nil => rfl
  | cons t rest ih =>
    have hrest : ∀ u ∈ rest, u.isOk = true :=
      fun u hu => h u (List.mem_cons_of_mem _ hu)
    cases t with
    | error e =>
      have := h _ (List.mem_cons_self _ _)
      simp [Except.isOk, Except.toBool] at this
    | ok ps =>
      cases climit with
      | none =>
        simp only [goInit, List.all_cons, Bool.true_and]
        exact ih _ hrest
      | some m =>
        by_cases hm : m < delivered + ps.length
        · simp only [goInit, if_pos hm, List.all_cons, Bool.true_and]
          exact drainFlags_all_ok rest hrest
        · simp only [goInit, if_neg hm, List.all_cons, Bool.true_and]
          exact ih _ hrest

theorem goInit_one_fault_awaited
    (tasks : List (Except E (List P))) (delivered : ℕ)
    (h : tasks.countP (fun t => !t.isOk) ≤ 1) :
    (goInit none tasks delivered).awaited.all (fun b => b) = true := by
  induction tasks generalizing delivered with
  | nil => rfl
  | cons t rest ih =>
    cases t with
    | error e =>
      have hall : ∀ u ∈ rest, u.isOk = true := by
        rw [List.countP_cons,
          if_pos (show (!(Except.error e).isOk) = true from rfl)] at h
        have hz : rest.countP (fun t => !t.isOk) = 0 := by omega
        exact countP_not_ok_zero rest hz
      simp only [goInit, List.all_cons, Bool.true_and]
      exact drainFlags_all_ok rest hall
    | ok ps =>
      have hr : rest.countP (fun u => !u.isOk) ≤ 1 := by
        rw [List.countP_cons] at h
        omega
      simp only [goInit, List.all_cons, Bool.true_and]
      exact ih _ hr

/-- Counterexample for C2: with a first chunk task faulting and a second
chunk task also faulted, the drain loop itself re-raises when awaiting
the second task, and the third scheduled task is left un-awaited even
though the exception propagates. -/
theorem init_batch_drain_counterexample :
    ¬ (∀ (tasks : List (Except ℕ (List ℕ))) (climit : Option ℕ),
        (runInitBatch tasks climit).failed.isSome = true →
        (runInitBatch tasks climit).awaited.all (fun b => b) = true) := by
  intro h
  have hc := h [Except.error 0, Except.error 1, Except.ok []] none (by decide)
  revert hc
  decide

/-- Claim C2 (amended): every scheduled chunk task gets exactly one
awaited flag; when an exception propagates, every other scheduled but
not-yet-awaited task is awaited in submission order until a drained task
itself re-raises — hence if at most one chunk task faults and the
consumer does not throw, or if no chunk task faults at all, no scheduled
task is ever left un-awaited. -/
theorem init_batch_drain (E P : Type) :
    ∀ (tasks : List (Except E (List P))) (climit : Option ℕ),
      (runInitBatch tasks climit).awaited.length = tasks.length
      ∧ ((climit = none ∧ tasks.countP (fun t => !t.isOk) ≤ 1) ∨
            (∀ t ∈ tasks, t.isOk = true) →
          (runInitBatch tasks climit).failed.isSome = true →
          (runInitBatch tasks climit).awaited.all (fun b => b) = true) := by
  intro tasks climit
  refine ⟨goInit_awaited_length climit tasks 0, ?_⟩
  intro hside _
  rcases hside with ⟨hnone, hcount⟩ | hall
  · subst hnone
    exact goInit_one_fault_awaited tasks 0 hcount
  · exact goInit_all_ok_awaited climit tasks 0 hall

/-- Witness for C2 at the scenario from the spec: three chunks, the
second faults, the exception propagates only after the first and third
chunk tasks have been awaited. -/
theorem init_batch_drain_witness :
    (runInitBatch [Except.ok [1], Except.error 7, Except.ok [3]]
        (none : Option ℕ)).failed.isSome = true
    ∧ (runInitBatch [Except.ok [1], Except.error 7, Except.ok [3]]
        (none : Option ℕ)).awaited.all (fun b => b) = true := by
  refine ⟨by decide, ?_⟩
  exact (init_batch_drain ℕ ℕ [Except.ok [1], Except.error 7, Except.ok [3]]
    none).2 (Or.inl ⟨rfl, by decide⟩) (by decide)

/-! ### ProductFactory chunking, dedup and re-expansion (api/product.py lines 133-272)

init_batch buffers records and flushes a chunk every `size` records
(1-based enumerate index modulo size), scheduling one _create_batch task
per chunk, plus one trailing task for a nonempty partial chunk.
_create_batch deduplicates the chunk ids (list(set(ids))) and issues
exactly one get_products_info network call, then __products_from_attrs
re-expands: one yielded instance per input record, a products_dict
making duplicate ids share the one instantiated product.  Python object
identity is modelled by an allocation tag drawn from a fresh counter. -/

/-- Input record of the resolver; only the identity key participates in
the dedup and re-expansion logic. -/
structure PRecord where
  id : String
  deriving DecidableEq

/-- A resolved product instance: its identity key plus an allocation tag
modelling Python object identity. -/
structure ProductInst where
  tag : ℕ
  pid : String
  deriving DecidableEq

/-- Association lookup in the products_dict, newest entry first. -/
def dictFind (dict : List (String × ProductInst)) (k : String) :
    Option ProductInst :=
  match dict with
  | [] => none
  | (k2, v) :: rest => if k2 = k then some v else dictFind rest k

/-- Embedding of __products_from_attrs: walk the chunk records in order;
a record whose id is already in products_dict yields the existing
instance, otherwise a fresh instance is allocated, recorded and yielded.
Returns the yielded instances and the next fresh tag. -/
def productsFromAttrsGo :
    List PRecord → List (String × ProductInst) → ℕ →
      List ProductInst × ℕ
  | [], _, fresh => ([], fresh)
  | r :: rest, dict, fresh =>
    match dictFind dict r.id with
    | some inst =>
        let res := productsFromAttrsGo rest dict fresh
        (inst :: res.1, res.2)
    | none =>
        let inst : ProductInst := ⟨fresh, r.id⟩
        let res := productsFromAttrsGo rest ((r.id, inst) :: dict) (fresh + 1)
        (inst :: res.1, res.2)

/-- Run __products_from_attrs on one chunk with an empty products_dict. -/
def productsFromAttrs (recs : List PRecord) (fresh : ℕ) :
    List ProductInst × ℕ :=
  productsFromAttrsGo recs [] fresh

/-- Embedding of the id dedup in _create_batch (list(set(ids_batch));
the set iteration order is unspecified in Python, first-occurrence order
is one faithful choice and no claim depends on the order). -/
def createBatchIds (recs : List PRecord) : List String :=
  (recs.map (fun r => r.id)).dedup

/-- One step of the init_batch buffering loop: 1-based index, current
buffer, flushed chunks. -/
def initBatchStep (size : ℕ) (st : ℕ × List PRecord × List (List PRecord))
    (r : PRecord) : ℕ × List PRecord × List (List PRecord) :=
  let ind := st.1 + 1
  let batch := st.2.1 ++ [r]
  if ind % size = 0 then (ind, [], st.2.2 ++ [batch])
  else (ind, batch, st.2.2)

/-- Chunks scheduled by init_batch, in submission order (the trailing
partial chunk, if nonempty, is scheduled last). -/
def initBatchChunks (size : ℕ) (recs : List PRecord) :
    List (List PRecord) :=
  let st := recs.foldl (initBatchStep size) (0, [], [])
  if st.2.1.isEmpty then st.2.2 else st.2.2 ++ [st.2.1]

/-- Number of get_products_info network calls issued by the pipeline:
_create_batch performs exactly one call per scheduled chunk. -/
def networkCallCount (size : ℕ) (recs : List PRecord) : ℕ :=
  (initBatchChunks size recs).length

/-- Resolve the chunks in submission order, threading the allocation
counter (distinct chunks use distinct fresh products_dicts). -/
def initBatchAllGo : List (List PRecord) → ℕ → List ProductInst
  | [], _ => []
  | c :: rest, fresh =>
      let res := productsFromAttrs c fresh
      res.1 ++ initBatchAllGo rest res.2

/-- All entities yielded by init_batch, in yield order. -/
def initBatchProducts (size : ℕ) (recs : List PRecord) :
    List ProductInst :=
  initBatchAllGo (initBatchChunks size recs) 0

/-- Per-chunk resolved batches, in submission order. -/
def chunkResultsGo : List (List PRecord) → ℕ → List (List ProductInst)
  | [], _ => []
  | c :: rest, fresh =>
      let res := productsFromAttrs c fresh
      res.1 :: chunkResultsGo rest res.2

/-- The generator await loop: tasks are awaited in submission order;
awaiting task i blocks until its completion instant sched i, so the
clock records completion timing while the yield order follows the task
list order. -/
def awaitLoopGo (results : List (List ProductInst)) (sched : ℕ → ℕ)
    (i : ℕ) (clock : ℕ) : List ProductInst × ℕ :=
  match results with
  | [] => ([], clock)
  | b :: rest =>
      let clock2 := max clock (sched i)
      let res := awaitLoopGo rest sched (i + 1) clock2
      (b ++ res.1, res.2)

/-- Entities yielded by init_batch when the chunk tasks complete at the
instants given by sched. -/
def initBatchYield (size : ℕ) (recs : List PRecord) (sched : ℕ → ℕ) :
    List ProductInst × ℕ :=
  awaitLoopGo (chunkResultsGo (initBatchChunks size recs) 0) sched 0 0

theorem awaitLoopGo_fst (results : List (List ProductInst))
    (sched : ℕ → ℕ) (i clock : ℕ) :
    (awaitLoopGo results sched i clock).1 = results.flatten := by
  induction results generalizing i clock with
  | nil => rfl
  | cons b rest ih => simp [awaitLoopGo, ih]

theorem chunkResultsGo_flatten (chunks : List (List PRecord)) (fresh : ℕ) :
    (chunkResultsGo chunks fresh).flatten = initBatchAllGo chunks fresh := by
  induction chunks generalizing fresh with
  | nil => rfl
  | cons c rest ih => simp [chunkResultsGo, initBatchAllGo, ih]

theorem initBatch_foldl_join (size : ℕ) (recs : List PRecord) :
    ∀ st : ℕ × List PRecord × List (List PRecord),
      ((recs.foldl (initBatchStep size) st).2.2).flatten
          ++ (recs.foldl (initBatchStep size) st).2.1
        = st.2.2.flatten ++ st.2.1 ++ recs := by
  induction recs with
  | nil => intro st; simp
  | cons r rest ih =>
    intro st
    show ((rest.foldl (initBatchStep size) (initBatchStep size st r)).2.2).flatten
        ++ (rest.foldl (initBatchStep size) (initBatchStep size st r)).2.1
      = st.2.2.flatten ++ st.2.1 ++ (r :: rest)
    rw [ih (initBatchStep size st r)]
    unfold initBatchStep
    by_cases h : (st.1 + 1) % size = 0 <;> simp [h]

theorem initBatchChunks_flatten (size : ℕ) (recs : List PRecord) :
    (initBatchChunks size recs).flatten = recs := by
  unfold initBatchChunks
  have h := initBatch_foldl_join size recs (0, [], [])
  simp only [List.flatten_nil, List.nil_append] at h
  by_cases hb : (recs.foldl (initBatchStep size) (0, [], [])).2.1.isEmpty
  · simp only [hb, if_pos]
    have : (recs.foldl (initBatchStep size) (0, [], [])).2.1 = [] :=
      List.isEmpty_iff.mp hb
    rw [this, List.append_nil] at h
    simpa using h
  · simp only [hb, if_neg, Bool.false_eq_true, not_false_iff]
    simpa using h

theorem productsFromAttrsGo_map_pid (recs : List PRecord) :
    ∀ (dict : List (String × ProductInst)) (fresh : ℕ),
      (∀ k v, dictFind dict k = some v → v.pid = k) →
      (productsFromAttrsGo recs dict fresh).1.map (fun p => p.pid)
        = recs.map (fun r => r.id) := by
  induction recs with
  | nil => intro dict fresh _; rfl
  | cons r rest ih =>
    intro dict fresh hdict
    cases hfind : dictFind dict r.id with
    | some inst =>
      simp only [productsFromAttrsGo, hfind, List.map_cons]
      rw [hdict r.id inst hfind, ih dict fresh hdict]
    | none =>
      simp only [productsFromAttrsGo, hfind, List.map_cons]
      have hdict2 : ∀ k v,
          dictFind ((r.id, (⟨fresh, r.id⟩ : ProductInst)) :: dict) k = some v
            → v.pid = k := by
        intro k v hkv
        unfold dictFind at hkv
        by_cases hk : r.id = k
        · rw [if_pos hk] at hkv
          cases hkv
          exact hk
        · rw [if_neg hk] at hkv
          exact hdict k v hkv
      rw [ih _ (fresh + 1) hdict2]

theorem initBatchAllGo_map_pid (chunks : List (List PRecord)) (fresh : ℕ) :
    (initBatchAllGo chunks fresh).map (fun p => p.pid)
      = chunks.flatten.map (fun r => r.id) := by
  induction chunks generalizing fresh with
  | nil => rfl
  | cons c rest ih =>
    simp only [initBatchAllGo, List.map_append, List.flatten_cons,
      productsFromAttrs]
    rw [productsFromAttrsGo_map_pid c [] fresh (by intro k v h; cases h),
      ih]

theorem dictFind_extend (dict : List (String × ProductInst))
    (knew : String) (inew : ProductInst) (k : String) (v : ProductInst)
    (hnone : dictFind dict knew = none) (hfound : dictFind dict k = some v) :
    dictFind ((knew, inew) :: dict) k = some v := by
  unfold dictFind
  by_cases hk : knew = k
  · rw [hk] at hnone
    rw [hnone] at hfound
    cases hfound
  · rw [if_neg hk]
    exact hfound

theorem productsFromAttrsGo_lookup_emit (recs : List PRecord) :
    ∀ (dict : List (String × ProductInst)) (fresh i : ℕ)
      (r : PRecord) (inst : ProductInst),
      recs[i]? = some r → dictFind dict r.id = some inst →
      (productsFromAttrsGo recs dict fresh).1[i]? = some inst := by
  induction recs with
  | nil =>
    intro dict fresh i r inst hr _
    simp at hr
  | cons r2 rest ih =>
    intro dict fresh i r inst hr hfound
    cases i with
    | zero =>
      have hr2 : r2 = r := by simpa using hr
      subst hr2
      simp only [productsFromAttrsGo, hfound]
      simp
    | succ n =>
      have hrn : rest[n]? = some r := by simpa using hr
      cases hfind : dictFind dict r2.id with
      | some inst2 =>
        simp only [productsFromAttrsGo, hfind]
        simpa using ih dict fresh n r inst hrn hfound
      | none =>
        simp only [productsFromAttrsGo, hfind]
        have hkeep : dictFind ((r2.id, (⟨fresh, r2.id⟩ : ProductInst))
            :: dict) r.id = some inst :=
          dictFind_extend dict r2.id _ r.id inst hfind hfound
        simpa using ih _ (fresh + 1) n r inst hrn hkeep

theorem productsFromAttrsGo_same_id (recs : List PRecord) :
    ∀ (dict : List (String × ProductInst)) (fresh i j : ℕ)
      (r1 r2 : PRecord),
      i ≤ j → recs[i]? = some r1 → recs[j]? = some r2 → r1.id = r2.id →
      (productsFromAttrsGo recs dict fresh).1[i]?
        = (productsFromAttrsGo recs dict fresh).1[j]? := by
  induction recs with
  | nil =>
    intro dict fresh i j r1 r2 _ hr1 _ _
    simp at hr1
  | cons r rest ih =>
    intro dict fresh i j r1 r2 hij hr1 hr2 hid
    cases i with
    | zero =>
      have hr1r : r = r1 := by simpa using hr1
      subst hr1r
      cases j with
      | zero => rfl
      | succ m =>
        have hrm : rest[m]? = some r2 := by simpa using hr2
        cases hfind : dictFind dict r.id with
        | some inst =>
          simp only [productsFromAttrsGo, hfind]
          have hfound2 : dictFind dict r2.id = some inst := by
            rw [← hid]; exact hfind
          have := productsFromAttrsGo_lookup_emit rest dict fresh m r2
            inst hrm hfound2
          simp [this]
        | none =>
          simp only [productsFromAttrsGo, hfind]
          have hfound2 : dictFind ((r.id, (⟨fresh, r.id⟩ : ProductInst))
              :: dict) r2.id = some (⟨fresh, r.id⟩ : ProductInst) := by
            unfold dictFind
            rw [if_pos hid]
          have := productsFromAttrsGo_lookup_emit rest _ (fresh + 1) m r2
            _ hrm hfound2
          simp [this]
    | succ n =>
      cases j with
      | zero => omega
      | succ m =>
        have hnm : n ≤ m := by omega
        have hrn : rest[n]? = some r1 := by simpa using hr1
        have hrm : rest[m]? = some r2 := by simpa using hr2
        cases hfind : dictFind dict r.id with
        | some inst =>
          simp only [productsFromAttrsGo, hfind]
          simpa using ih dict fresh n m r1 r2 hnm hrn hrm hid
        | none =>
          simp only [productsFromAttrsGo, hfind]
          simpa using ih _ (fresh + 1) n m r1 r2 hnm hrn hrm hid

theorem productsFromAttrs_length (recs : List PRecord) (fresh : ℕ) :
    (productsFromAttrs recs fresh).1.length = recs.length := by
  have h := congrArg List.length
    (productsFromAttrsGo_map_pid recs [] fresh (by intro k v hkv; cases hkv))
  simpa [productsFromAttrs] using h

theorem productsFromAttrs_instance_iff (recs : List PRecord) (fresh : ℕ)
    (i j : ℕ) (r1 r2 : PRecord)
    (hr1 : recs[i]? = some r1) (hr2 : recs[j]? = some r2) :
    ((productsFromAttrs recs fresh).1[i]?
        = (productsFromAttrs recs fresh).1[j]? ↔ r1.id = r2.id) := by
  constructor
  · intro heq
    have hmap := productsFromAttrsGo_map_pid recs [] fresh
      (by intro k v hkv; cases hkv)
    have hi := congrArg (fun l => l[i]?) hmap
    have hj := congrArg (fun l => l[j]?) hmap
    simp only [List.getElem?_map] at hi hj
    simp only [productsFromAttrs] at heq
    rw [heq] at hi
    rw [hj] at hi
    rw [hr1, hr2] at hi
    simpa using hi.symm
  · intro hid
    rcases le_total i j with hle | hle
    · exact productsFromAttrsGo_same_id recs [] fresh i j r1 r2 hle
        hr1 hr2 hid
    · exact (productsFromAttrsGo_same_id recs [] fresh j i r2 r1 hle
        hr2 hr1 hid.symm).symm

/-- Claim C3: a chunk's identity keys are deduplicated (no duplicate id
reaches the single network call per chunk, and every input id is
covered); the output re-expands to one entity per input record; two
output positions carry the same instance exactly when their records
share an id; in particular for records A, A, B with chunk size 50
exactly one network call occurs, the first two yielded entities are the
same instance and the third is distinct. -/
theorem create_batch_dedup_reexpand :
    (∀ recs : List PRecord, (createBatchIds recs).Nodup
        ∧ ∀ x, x ∈ createBatchIds recs ↔ x ∈ recs.map (fun r => r.id))
    ∧ (∀ (recs : List PRecord) (fresh : ℕ),
        (productsFromAttrs recs fresh).1.length = recs.length)
    ∧ (∀ (recs : List PRecord) (fresh i j : ℕ) (r1 r2 : PRecord),
        recs[i]? = some r1 → recs[j]? = some r2 →
        ((productsFromAttrs recs fresh).1[i]?
            = (productsFromAttrs recs fresh).1[j]? ↔ r1.id = r2.id))
    ∧ (networkCallCount 50 [⟨"A"⟩, ⟨"A"⟩, ⟨"B"⟩] = 1
        ∧ (initBatchProducts 50 [⟨"A"⟩, ⟨"A"⟩, ⟨"B"⟩])[0]?
            = (initBatchProducts 50 [⟨"A"⟩, ⟨"A"⟩, ⟨"B"⟩])[1]?
        ∧ (initBatchProducts 50 [⟨"A"⟩, ⟨"A"⟩, ⟨"B"⟩])[2]?
            ≠ (initBatchProducts 50 [⟨"A"⟩, ⟨"A"⟩, ⟨"B"⟩])[0]?) := by
  refine ⟨?_, productsFromAttrs_length,
    fun recs fresh i j r1 r2 =>
      productsFromAttrs_instance_iff recs fresh i j r1 r2, ?_⟩
  · intro recs
    exact ⟨List.nodup_dedup _, fun x => List.mem_dedup⟩
  · refine ⟨by decide, by decide, by decide⟩

/-- Witness for C3: instantiating the same-id criterion at the records
A, A of the concrete example shows positions 0 and 1 share an instance. -/
theorem create_batch_dedup_reexpand_witness :
    (productsFromAttrs [⟨"A"⟩, ⟨"A"⟩, ⟨"B"⟩] 0).1[0]?
      = (productsFromAttrs [⟨"A"⟩, ⟨"A"⟩, ⟨"B"⟩] 0).1[1]? :=
  (create_batch_dedup_reexpand.2.2.1 [⟨"A"⟩, ⟨"A"⟩, ⟨"B"⟩] 0 0 1
    ⟨"A"⟩ ⟨"A"⟩ (by decide) (by decide)).mpr rfl

/-- Claim C4: for every input sequence and chunk size (1 included), the
entities yielded by init_batch align positionally with the input
records: the yield order is the chunk submission order, independent of
the completion schedule of the concurrent chunk tasks. -/
theorem init_batch_ordering (size : ℕ) (recs : List PRecord)
    (sched : ℕ → ℕ) (_hsize : 0 < size) :
    (initBatchYield size recs sched).1 = initBatchProducts size recs
    ∧ (initBatchProducts size recs).map (fun p => p.pid)
        = recs.map (fun r => r.id)
    ∧ (initBatchProducts size recs).length = recs.length := by
  have hyield : (initBatchYield size recs sched).1
      = initBatchProducts size recs := by
    unfold initBatchYield initBatchProducts
    rw [awaitLoopGo_fst, chunkResultsGo_flatten]
  have hmap : (initBatchProducts size recs).map (fun p => p.pid)
      = recs.map (fun r => r.id) := by
    unfold initBatchProducts
    rw [initBatchAllGo_map_pid, initBatchChunks_flatten]
  refine ⟨hyield, hmap, ?_⟩
  have := congrArg List.length hmap
  simpa using this

/-- Witness for C4 at chunk size 1 with three records and a completion
schedule finishing the later chunks first. -/
theorem init_batch_ordering_witness :
    (initBatchYield 1 [⟨"A"⟩, ⟨"B"⟩, ⟨"C"⟩] (fun i => 10 - i)).1
      = initBatchProducts 1 [⟨"A"⟩, ⟨"B"⟩, ⟨"C"⟩]
    ∧ (initBatchProducts 1 [⟨"A"⟩, ⟨"B"⟩, ⟨"C"⟩]).map (fun p => p.pid)
      = ["A", "B", "C"] := by
  have h := init_batch_ordering 1 [⟨"A"⟩, ⟨"B"⟩, ⟨"C"⟩]
    (fun i => 10 - i) (by decide)
  exact ⟨h.1, h.2.1.trans (by decide)⟩

/-! ### search_product pagination (api/product.py lines 770-844 and 966-1006)

The first _search_one call at offset 0 yields the first page and the
total; if n_unfiltered < total the remaining offsets are
range(n_unfiltered, total, limit), fetched via asyncio.gather (which
preserves argument order), then products are concatenated first page
first and deduplicated with more_itertools.unique_everseen keyed by
p.info.id.  A page fetch is modelled by an oracle from (offset, limit)
to (items, total); items carry their identity through the key function. -/

/-- Embedding of the Python range(start, stop, step) sequence for a
positive step (a zero step raises in Python and yields [] here). -/
def pyRange (start stop step : ℕ) : List ℕ :=
  if _h : 0 < step ∧ start < stop then
    start :: pyRange (start + step) stop step
  else []
termination_by stop - start
decreasing_by
  simp_wf
  omega

/-- Embedding of more_itertools.unique_everseen with a key function:
keep each element whose key has not been seen yet, in first-seen order. -/
def uniqueEverseenGo [DecidableEq κ] (key : α → κ) :
    List α → List κ → List α
  | [], _ => []
  | x :: xs, seen =>
    if key x ∈ seen then uniqueEverseenGo key xs seen
    else x :: uniqueEverseenGo key xs (key x :: seen)

/-- unique_everseen from an empty seen set. -/
def uniqueEverseen [DecidableEq κ] (key : α → κ) (l : List α) : List α :=
  uniqueEverseenGo key l []

/-- Concatenation of all pages in the order the source assembles them:
first page first, then the gathered pages in ascending offset order. -/
def searchMerged (fetch : ℕ → ℕ → List α × ℕ) (limit : ℕ) : List α :=
  let fp := fetch 0 limit
  if fp.1.length < fp.2 then
    fp.1 ++ ((pyRange fp.1.length fp.2 limit).map
      (fun o => (fetch o limit).1)).flatten
  else fp.1

/-- Offsets fetched and final result of search_product. -/
structure SearchRun (α : Type) where
  offsets : List ℕ
  result : List α

/-- Embedding of the search_product pagination: fetch offset 0, plan the
remaining offsets when the first page is short of the total, fetch them
all (concurrently in the source; order-preserving), merge and dedup. -/
def search_product_model [DecidableEq κ] (key : α → κ)
    (fetch : ℕ → ℕ → List α × ℕ) (limit : ℕ) : SearchRun α :=
  let fp := fetch 0 limit
  { offsets :=
      if fp.1.length < fp.2 then 0 :: pyRange fp.1.length fp.2 limit
      else [0]
    result := uniqueEverseen key (searchMerged fetch limit) }

theorem pyRange_mem (start stop step o : ℕ) (hstep : 0 < step) :
    o ∈ pyRange start stop step ↔ ∃ i, o = start + i * step ∧ o < stop := by
  induction start, stop, step using pyRange.induct with
  | case1 start stop step h ih =>
    rw [pyRange, dif_pos h]
    constructor
    · intro hmem
      rcases List.mem_cons.mp hmem with h0 | hrec
      · exact ⟨0, by omega, by omega⟩
      · rcases (ih hstep).mp hrec with ⟨i, hi, hlt⟩
        refine ⟨i + 1, ?_, hlt⟩
        rw [hi]; ring
    · rintro ⟨i, hi, hlt⟩
      cases i with
      | zero => simp at hi; simp [hi]
      | succ i2 =>
        apply List.mem_cons_of_mem
        refine (ih hstep).mpr ⟨i2, ?_, hlt⟩
        rw [hi]; ring
  | case2 start stop step h =>
    rw [pyRange, dif_neg h]
    simp only [List.not_mem_nil, false_iff, not_exists]
    rintro i ⟨hi, hlt⟩
    exact h ⟨hstep, by omega⟩

theorem pyRange_sorted (start stop step : ℕ) (hstep : 0 < step) :
    List.Pairwise (fun a b => a < b) (pyRange start stop step) := by
  induction start, stop, step using pyRange.induct with
  | case1 start stop step h ih =>
    rw [pyRange, dif_pos h]
    refine List.pairwise_cons.mpr ⟨?_, ih hstep⟩
    intro b hb
    rcases (pyRange_mem _ _ _ _ hstep).mp hb with ⟨i, hi, _⟩
    omega
  | case2 start stop step h =>
    rw [pyRange, dif_neg h]
    exact List.Pairwise.nil

theorem uniqueEverseenGo_sublist [DecidableEq κ] (key : α → κ)
    (l : List α) : ∀ seen, (uniqueEverseenGo key l seen).Sublist l := by
  induction l with
  | nil => intro seen; exact List.Sublist.refl []
  | cons x xs ih =>
    intro seen
    by_cases h : key x ∈ seen
    · simp only [uniqueEverseenGo, if_pos h]
      exact (ih seen).cons x
    · simp only [uniqueEverseenGo, if_neg h]
      exact (ih (key x :: seen)).cons₂ x

theorem uniqueEverseenGo_nodup [DecidableEq κ] (key : α → κ)
    (l : List α) : ∀ seen,
      ((uniqueEverseenGo key l seen).map key).Nodup
      ∧ ∀ x ∈ uniqueEverseenGo key l seen, key x ∉ seen := by
  induction l with
  | nil => intro seen; exact ⟨List.nodup_nil, by intro x hx; cases hx⟩
  | cons x xs ih =>
    intro seen
    by_cases h : key x ∈ seen
    · simpa only [uniqueEverseenGo, if_pos h] using ih seen
    · simp only [uniqueEverseenGo, if_neg h]
      rcases ih (key x :: seen) with ⟨hnd, hout⟩
      refine ⟨?_, ?_⟩
      · simp only [List.map_cons, List.nodup_cons]
        refine ⟨?_, hnd⟩
        intro hmem
        rcases List.mem_map.mp hmem with ⟨y, hy, hky⟩
        exact hout y hy (by rw [hky]; exact List.mem_cons_self _ _)
      · intro y hy
        rcases List.mem_cons.mp hy with rfl | hy2
        · exact h
        · intro hcon
          exact hout y hy2 (List.mem_cons_of_mem _ hcon)

theorem uniqueEverseenGo_complete [DecidableEq κ] (key : α → κ)
    (l : List α) : ∀ seen, ∀ a ∈ l,
      key a ∈ seen ∨ ∃ b ∈ uniqueEverseenGo key l seen, key b = key a := by
  induction l with
  | nil => intro seen a ha; cases ha
  | cons x xs ih =>
    intro seen a ha
    by_cases h : key x ∈ seen
    · simp only [uniqueEverseenGo, if_pos h]
      rcases List.mem_cons.mp ha with rfl | ha2
      · exact Or.inl h
      · exact ih seen a ha2
    · simp only [uniqueEverseenGo, if_neg h]
      rcases List.mem_cons.mp ha with rfl | ha2
      · exact Or.inr ⟨a, List.mem_cons_self _ _, rfl⟩
      · rcases ih (key x :: seen) a ha2 with hseen | ⟨b, hb, hkb⟩
        · rcases List.mem_cons.mp hseen with heq | hseen2
          · exact Or.inr ⟨x, List.mem_cons_self _ _, heq.symm⟩
          · exact Or.inl hseen2
        · exact Or.inr ⟨b, List.mem_cons_of_mem _ hb, hkb⟩

theorem uniqueEverseenGo_of_nodup [DecidableEq κ] (key : α → κ)
    (l : List α) : ∀ seen, (l.map key).Nodup →
      (∀ a ∈ l, key a ∉ seen) → uniqueEverseenGo key l seen = l := by
  induction l with
  | nil => intro seen _ _; rfl
  | cons x xs ih =>
    intro seen hnd hsn
    have hx : key x ∉ seen := hsn x (List.mem_cons_self _ _)
    simp only [uniqueEverseenGo, if_neg hx]
    congr 1
    simp only [List.map_cons, List.nodup_cons] at hnd
    refine ih (key x :: seen) hnd.2 ?_
    intro a ha
    intro hcon
    rcases List.mem_cons.mp hcon with heq | hseen2
    · exact hnd.1 (heq ▸ List.mem_map_of_mem key ha)
    · exact hsn a (List.mem_cons_of_mem _ ha) hseen2

/-- Concrete page-fetch oracle for the total=237, limit=100 scenario:
the page at offset o holds the identities o, o+1, ... up to min(o+100, 237). -/
def fetch237 : ℕ → ℕ → List ℕ × ℕ :=
  fun o _ => (List.range' o (min 100 (237 - o)), 237)

theorem pyRange_100_237 : pyRange 100 237 100 = [100, 200] := by
  rw [pyRange, dif_pos (by norm_num : 0 < 100 ∧ 100 < 237)]
  rw [pyRange, dif_pos (by norm_num : 0 < 100 ∧ 100 + 100 < 237)]
  rw [pyRange, dif_neg (by norm_num : ¬(0 < 100 ∧ 100 + 100 + 100 < 237))]

theorem fetch237_len0 : (fetch237 0 100).1.length = 100 := by
  simp [fetch237]

theorem searchMerged_237 : searchMerged fetch237 100 = List.range' 0 237 := by
  unfold searchMerged
  rw [if_pos (by simp [fetch237])]
  rw [fetch237_len0, show (fetch237 0 100).2 = 237 from rfl, pyRange_100_237]
  decide

/-- Claim C5: when the first page of n items is short of the total, the
remaining fetches are issued exactly at offsets n, n+limit, n+2*limit,
... strictly below total (membership characterisation plus strictly
increasing order), and the returned result is the merged pages
deduplicated by identity preserving first-seen order (a subsequence of
the merged list, with no duplicate key, covering every merged item);
in particular for total 237 and limit 100 exactly three fetches occur at
offsets 0, 100, 200 and the result consists of the 237 distinct items. -/
theorem search_product_pagination {κ α : Type} [DecidableEq κ]
    (key : α → κ) (fetch : ℕ → ℕ → List α × ℕ) (limit : ℕ)
    (hlim : 0 < limit) :
    ((fetch 0 limit).1.length < (fetch 0 limit).2 →
        (search_product_model key fetch limit).offsets
          = 0 :: pyRange (fetch 0 limit).1.length (fetch 0 limit).2 limit)
    ∧ (∀ o, o ∈ pyRange (fetch 0 limit).1.length (fetch 0 limit).2 limit
        ↔ ∃ i, o = (fetch 0 limit).1.length + i * limit
            ∧ o < (fetch 0 limit).2)
    ∧ List.Pairwise (fun a b => a < b)
        (pyRange (fetch 0 limit).1.length (fetch 0 limit).2 limit)
    ∧ (search_product_model key fetch limit).result
        = uniqueEverseen key (searchMerged fetch limit)
    ∧ ((search_product_model key fetch limit).result).Sublist
        (searchMerged fetch limit)
    ∧ (((search_product_model key fetch limit).result).map key).Nodup
    ∧ (∀ a ∈ searchMerged fetch limit,
        ∃ b ∈ (search_product_model key fetch limit).result,
          key b = key a)
    ∧ (search_product_model (fun x : ℕ => x) fetch237 100).offsets
        = [0, 100, 200]
    ∧ (search_product_model (fun x : ℕ => x) fetch237 100).result
        = List.range' 0 237
    ∧ (search_product_model (fun x : ℕ => x) fetch237 100).result.length
        = 237 := by
  have hres237 : (search_product_model (fun x : ℕ => x) fetch237 100).result
      = List.range' 0 237 := by
    show uniqueEverseen (fun x : ℕ => x) (searchMerged fetch237 100)
        = List.range' 0 237
    rw [searchMerged_237]
    unfold uniqueEverseen
    rw [uniqueEverseenGo_of_nodup]
    · simpa using List.nodup_range' 0 237
    · intro a _ hcon
      cases hcon
  refine ⟨?_, ?_, ?_, rfl, uniqueEverseenGo_sublist key _ [],
    (uniqueEverseenGo_nodup key _ []).1, ?_, ?_, hres237, ?_⟩
  · intro h
    show (if (fetch 0 limit).1.length < (fetch 0 limit).2 then
        0 :: pyRange (fetch 0 limit).1.length (fetch 0 limit).2 limit
      else [0]) = _
    rw [if_pos h]
  · intro o
    exact pyRange_mem _ _ _ _ hlim
  · exact pyRange_sorted _ _ _ hlim
  · intro a ha
    rcases uniqueEverseenGo_complete key (searchMerged fetch limit) [] a ha
      with hseen | hex
    · cases hseen
    · exact hex
  · show (if (fetch237 0 100).1.length < (fetch237 0 100).2 then
        0 :: pyRange (fetch237 0 100).1.length (fetch237 0 100).2 100
      else [0]) = [0, 100, 200]
    rw [if_pos (by simp [fetch237])]
    rw [show (fetch237 0 100).2 = 237 from rfl, fetch237_len0,
      pyRange_100_237]
  · rw [hres237]
    simp

/-- Witness for C5: the offsets and the 237-item deduplicated result of
the concrete total=237, limit=100 scenario. -/
theorem search_product_pagination_witness :
    (search_product_model (fun x : ℕ => x) fetch237 100).offsets
      = [0, 100, 200]
    ∧ (search_product_model (fun x : ℕ => x) fetch237 100).result.length
      = 237 := by
  have h := search_product_pagination (fun x : ℕ => x) fetch237 100
    (by norm_num)
  exact ⟨h.2.2.2.2.2.2.2.1, h.2.2.2.2.2.2.2.2.2⟩

/-! ### ThrottlingClient._throttle (core/helpers.py lines 434-467)

Python source of the admission control around every wrapped call:

    while self._max_requests > 0 and len(self._requests_times) >= self._max_requests:
        to_del = count of entries with time.time() - timestamp > self._period_s
        pop to_del entries from the front
        if len(self._requests_times) > 0:
            time_delta = self._requests_times[0] + self._period_s - time.time()
            if time_delta > 0: await asyncio.sleep(time_delta)
    if self._max_requests > 0:
        self._requests_times.append(time.time())
    ...forward the call...

The only suspension point is the sleep, so the final length check and
the append are atomic under cooperative scheduling.  The concurrent
system is modelled as a transition relation over (clock, window,
admission log): time may advance, any waiter inside the while loop may
prune, and a waiter observing len(window) < k atomically appends the
current instant (one admission).  This over-approximates every real
interleaving of concurrent throttled calls. -/

/-- Pruning predicate of the register cleaning loop: an entry is stale
when now - timestamp > T (with the Python arithmetic on monotone clock
values; natural subtraction agrees since entries are never in the
future). -/
def staleB (T now ts : ℕ) : Bool := decide (T < now - ts)

/-- Number of entries the cleaning loop deletes: it counts every stale
entry in the register. -/
def pruneCount (T now : ℕ) (w : List ℕ) : ℕ :=
  (w.filter (staleB T now)).length

/-- The cleaning loop pops pruneCount entries from the front. -/
def prune (T now : ℕ) (w : List ℕ) : List ℕ :=
  w.drop (pruneCount T now w)

/-- Membership of an admission instant a in the sliding window of
length T ending at t: t - T < a ≤ t, written without truncated
subtraction. -/
def inWindow (T t a : ℕ) : Bool := decide (a ≤ t) && decide (t < a + T)

/-- State of the throttled transport: current clock, the
_requests_times register, and the ghost log of admitted instants. -/
structure ThrState where
  now : ℕ
  window : List ℕ
  admitted : List ℕ

/-- Interleaved steps of the throttled system with max_requests = k and
period_seconds = T: time advances; a waiter in the while loop prunes;
a waiter that observes len(window) < k atomically appends now and is
admitted (the wrapped call is then forwarded). -/
inductive ThrStep (k T : ℕ) : ThrState → ThrState → Prop where
  | tick (s : ThrState) (d : ℕ) :
      ThrStep k T s ⟨s.now + d, s.window, s.admitted⟩
  | pruneStep (s : ThrState) (h : k ≤ s.window.length) :
      ThrStep k T s ⟨s.now, prune T s.now s.window, s.admitted⟩
  | admitNow (s : ThrState) (h : s.window.length < k) :
      ThrStep k T s ⟨s.now, s.window ++ [s.now], s.admitted ++ [s.now]⟩

/-- Initial state: empty register, no admissions. -/
def thrInit : ThrState := ⟨0, [], []⟩

/-- Reachability from the initial state. -/
def ThrReach (k T : ℕ) (s : ThrState) : Prop :=
  Relation.ReflTransGen (ThrStep k T) thrInit s

/-- Inductive invariant: the register is sorted and bounded by the
clock, the log is bounded by the clock, every admission newer than any
cutoff t with now ≤ t+1 is still represented in the register, and the
sliding-window bound holds for the log. -/
def ThrInv (k T : ℕ) (s : ThrState) : Prop :=
  s.window.Pairwise (fun a b => a ≤ b)
  ∧ (∀ x ∈ s.window, x ≤ s.now)
  ∧ (∀ x ∈ s.admitted, x ≤ s.now)
  ∧ (∀ t : ℕ, s.now ≤ t + 1 →
      (s.admitted.filter (fun a => decide (t < a + T))).length
        ≤ (s.window.filter (fun a => decide (t < a + T))).length)
  ∧ (∀ t : ℕ, (s.admitted.filter (inWindow T t)).length ≤ k)

theorem filter_length_mono (p q : α → Bool) (l : List α)
    (h : ∀ x ∈ l, p x = true → q x = true) :
    (l.filter p).length ≤ (l.filter q).length := by
  induction l with
  | nil => exact le_refl 0
  | cons a rest ih =>
    have hrest := ih (fun x hx => h x (List.mem_cons_of_mem _ hx))
    cases hp : p a with
    | true =>
      have hq := h a (List.mem_cons_self _ _) hp
      simp only [List.filter_cons, hp, hq, if_pos, List.length_cons]
      omega
    | false =>
      cases hq : q a with
      | true =>
        simp only [List.filter_cons, hp, hq]
        simp only [Bool.false_eq_true, if_false, if_pos, List.length_cons]
        omega
      | false =>
        simp only [List.filter_cons, hp, hq, Bool.false_eq_true, if_false]
        exact hrest

theorem staleB_antitone (T now a x : ℕ) (hax : a ≤ x)
    (hx : staleB T now x = true) : staleB T now a = true := by
  simp only [staleB, decide_eq_true_eq] at hx ⊢
  omega

theorem prune_eq (T now : ℕ) (w : List ℕ)
    (hsort : w.Pairwise (fun a b => a ≤ b)) :
    prune T now w = w.filter (fun ts => !staleB T now ts) := by
  induction w with
  | nil => rfl
  | cons a rest ih =>
    rcases List.pairwise_cons.mp hsort with ⟨ha, hrest⟩
    cases hA : staleB T now a with
    | true =>
      have hcount : pruneCount T now (a :: rest)
          = pruneCount T now rest + 1 := by
        simp [pruneCount, List.filter_cons, hA]
      simp only [prune, hcount, List.filter_cons, hA, Bool.not_true,
        List.drop_succ_cons]
      exact ih hrest
    | false =>
      have hnone : ∀ x ∈ rest, staleB T now x = false := by
        intro x hx
        cases hsx : staleB T now x with
        | false => rfl
        | true =>
          have := staleB_antitone T now a x (ha x hx) hsx
          rw [hA] at this
          cases this
      have hcount0 : pruneCount T now (a :: rest) = 0 := by
        simp only [pruneCount, List.filter_cons, hA, Bool.false_eq_true,
          if_false]
        rw [List.length_eq_zero, List.filter_eq_nil_iff]
        intro x hx
        simp [hnone x hx]
      have hfr : rest.filter (fun ts => !staleB T now ts) = rest := by
        rw [List.filter_eq_self]
        intro x hx
        simp [hnone x hx]
      simp [prune, hcount0, List.filter_cons, hA, hfr]

theorem thrStep_inv {k T : ℕ} {s s2 : ThrState} (hstep : ThrStep k T s s2)
    (hinv : ThrInv k T s) : ThrInv k T s2 := by
  obtain ⟨hsort, hwb, hab, hcmp, hmain⟩ := hinv
  cases hstep with
  | tick d =>
    refine ⟨hsort, ?_, ?_, ?_, hmain⟩
    · intro x hx
      exact le_trans (hwb x hx) (Nat.le_add_right _ _)
    · intro x hx
      exact le_trans (hab x hx) (Nat.le_add_right _ _)
    · intro t ht
      have ht2 : s.now + d ≤ t + 1 := ht
      exact hcmp t (by omega)
  | pruneStep h =>
    have heq : prune T s.now s.window
        = s.window.filter (fun ts => !staleB T s.now ts) :=
      prune_eq T s.now s.window hsort
    refine ⟨?_, ?_, hab, ?_, hmain⟩
    · exact List.Pairwise.sublist (List.drop_sublist _ _) hsort
    · intro x hx
      exact hwb x ((List.drop_sublist _ _).mem hx)
    · intro t ht
      have ht2 : s.now ≤ t + 1 := ht
      show (s.admitted.filter (fun a => decide (t < a + T))).length
        ≤ ((prune T s.now s.window).filter
            (fun a => decide (t < a + T))).length
      rw [heq, List.filter_filter]
      have hcong : s.window.filter
          (fun a => decide (t < a + T) && !staleB T s.now a)
          = s.window.filter (fun a => decide (t < a + T)) := by
        apply List.filter_congr
        intro x _
        cases hP : decide (t < x + T) with
        | false => simp
        | true =>
          have hx2 : t < x + T := of_decide_eq_true hP
          have hstale : staleB T s.now x = false := by
            simp only [staleB, decide_eq_false_iff_not]
            omega
          simp [hstale]
      rw [hcong]
      exact hcmp t ht2
  | admitNow h =>
    refine ⟨?_, ?_, ?_, ?_, ?_⟩
    · show (s.window ++ [s.now]).Pairwise (fun a b => a ≤ b)
      rw [List.pairwise_append]
      refine ⟨hsort, List.pairwise_singleton _ _, ?_⟩
      intro x hx y hy
      rcases List.mem_singleton.mp hy with rfl
      exact hwb x hx
    · intro x hx
      rcases List.mem_append.mp hx with h1 | h2
      · exact hwb x h1
      · rcases List.mem_singleton.mp h2 with rfl
        exact le_refl _
    · intro x hx
      rcases List.mem_append.mp hx with h1 | h2
      · exact hab x h1
      · rcases List.mem_singleton.mp h2 with rfl
        exact le_refl _
    · intro t ht
      have ht2 : s.now ≤ t + 1 := ht
      show ((s.admitted ++ [s.now]).filter
          (fun a => decide (t < a + T))).length
        ≤ ((s.window ++ [s.now]).filter
            (fun a => decide (t < a + T))).length
      rw [List.filter_append, List.filter_append, List.length_append,
        List.length_append]
      have := hcmp t ht2
      omega
    · intro t
      show ((s.admitted ++ [s.now]).filter (inWindow T t)).length ≤ k
      rw [List.filter_append]
      cases hmem : inWindow T t s.now with
      | false =>
        simp only [List.filter_cons, hmem, Bool.false_eq_true, if_false,
          List.filter_nil, List.length_append]
        have := hmain t
        simp only [List.length_nil]
        omega
      | true =>
        have hnow_le : s.now ≤ t := by
          simp only [inWindow, Bool.and_eq_true, decide_eq_true_eq] at hmem
          exact hmem.1
        have h1 : (s.admitted.filter (inWindow T t)).length
            ≤ (s.admitted.filter (fun a => decide (t < a + T))).length := by
          refine filter_length_mono _ _ _ ?_
          intro x _ hx
          simp only [inWindow, Bool.and_eq_true, decide_eq_true_eq] at hx
          simp [hx.2]
        have h2 : (s.admitted.filter
            (fun a => decide (t < a + T))).length
            ≤ (s.window.filter (fun a => decide (t < a + T))).length :=
          hcmp t (by omega)
        have h3 : (s.window.filter
            (fun a => decide (t < a + T))).length ≤ s.window.length :=
          List.length_filter_le _ _
        simp only [List.filter_cons, hmem, if_pos, List.filter_nil,
          List.length_append, List.length_cons, List.length_nil]
        omega

theorem thrReach_inv (k T : ℕ) (s : ThrState) (hreach : ThrReach k T s) :
    ThrInv k T s := by
  induction hreach with
  | refl =>
    refine ⟨List.Pairwise.nil, ?_, ?_, ?_, ?_⟩
    · intro x hx; cases hx
    · intro x hx; cases hx
    · intro t _; exact le_refl 0
    · intro t; exact Nat.zero_le k
  | tail hsteps hstep ih =>
    exact thrStep_inv hstep ih

/-- Do-not-reject outcome of one atomic segment of the while loop. -/
inductive ThrOutcome where
  | admitted (w : List ℕ) : ThrOutcome
  | sleep (w : List ℕ) (delay : ℕ) : ThrOutcome

/-- One atomic segment of the _throttle body at instant now (0 < k):
below the limit the call is admitted at once; otherwise the register is
pruned and either the loop exits and admits, or the caller sleeps until
the oldest retained timestamp leaves the window and re-checks after
waking.  There is no rejecting branch. -/
def throttleSegment (k T now : ℕ) (w : List ℕ) : ThrOutcome :=
  if k ≤ w.length then
    let w2 := prune T now w
    if w2.length < k then ThrOutcome.admitted (w2 ++ [now])
    else
      match w2 with
      | [] => ThrOutcome.admitted [now]
      | oldest :: _ => ThrOutcome.sleep w2 (oldest + T - now)
  else ThrOutcome.admitted (w ++ [now])

/-- Claim C1: along every interleaving of concurrent throttled calls
with max_requests = k > 0 and period_seconds = T, the number of
admissions inside any sliding window of length T never exceeds k; and a
single admission-control segment either admits or sleeps-and-retries,
never rejects. -/
theorem throttle_rate_limit (k T : ℕ) (_hk : 0 < k) :
    (∀ s : ThrState, ThrReach k T s →
        ∀ t : ℕ, (s.admitted.filter (inWindow T t)).length ≤ k)
    ∧ (∀ (now : ℕ) (w : List ℕ),
        (∃ w2, throttleSegment k T now w = ThrOutcome.admitted w2)
        ∨ (∃ w2 d, throttleSegment k T now w = ThrOutcome.sleep w2 d)) := by
  constructor
  · intro s hreach t
    exact (thrReach_inv k T s hreach).2.2.2.2 t
  · intro now w
    unfold throttleSegment
    by_cases h1 : k ≤ w.length
    · rw [if_pos h1]
      by_cases h2 : (prune T now w).length < k
      · rw [if_pos h2]
        exact Or.inl ⟨_, rfl⟩
      · rw [if_neg h2]
        cases hp : prune T now w with
        | nil => exact Or.inl ⟨_, rfl⟩
        | cons oldest rest => exact Or.inr ⟨_, _, rfl⟩
    · rw [if_neg h1]
      exact Or.inl ⟨_, rfl⟩

/-- Witness for C1: with k = 2, T = 10, the state reached by one
admission at instant 0 satisfies the sliding-window bound at t = 5. -/
theorem throttle_rate_limit_witness :
    (((⟨0, [0], [0]⟩ : ThrState).admitted.filter (inWindow 10 5)).length
      ≤ 2) :=
  (throttle_rate_limit 2 10 (by norm_num)).1 ⟨0, [0], [0]⟩
    (Relation.ReflTransGen.single (ThrStep.admitNow thrInit (by decide))) 5

/-! ### Login lockout (api/session.py lines 352-441, core/helpers.py 196-220)

Python source of the relevant pieces:

    _LOGIN_FAILURE_HASH = set()
    _LOGIN_FAILURE_MINTIME = 60 * 60 * 3

    @lru_cache_timed(maxsize=32, seconds=_LOGIN_FAILURE_MINTIME)
    def _should_fail(credentials): ...   # never called anywhere

    async def login(credentials, session=None, /, safeguard_incorrect_credentials=True):
        if safeguard_incorrect_credentials:
            if credentials in _LOGIN_FAILURE_HASH:
                raise BadCredentialsError("Abort. Login previously failed ...")
        try:
            session_core = await webapi.login(credentials)
        except BadCredentialsError:
            _LOGIN_FAILURE_HASH.add(credentials)
            raise
        ...

    def check_response(response):
        if response.status_code == 400 and response.json()["status"] == LOGIN.BAD_CREDENTIALS:
            raise BadCredentialsError("Bad Credentials. Reponse content: " + ...)
        if response.status_code not in (200, 201):
            raise ResponseError(...)

login consults the raw _LOGIN_FAILURE_HASH set directly; no code path
ever removes an entry or consults the time-bucketed _should_fail, so the
embedding carries a ghost clock argument that the function body ignores,
exactly as the source ignores the clock. -/

/-- Lockout window constant from api/session.py (3 hours in seconds). -/
def _LOGIN_FAILURE_MINTIME : ℕ := 60 * 60 * 3

/-- LOGIN.BAD_CREDENTIALS status payload constant (core/constants.py). -/
def LOGIN_BAD_CREDENTIALS : ℕ := 3

/-- Exception classes raised by this layer. -/
inductive PyExcType where
  | responseError
  | badCredentialsError
  deriving DecidableEq

/-- A raised exception: its class plus its message. -/
structure RaisedError where
  etype : PyExcType
  msg : String
  deriving DecidableEq

/-- Relevant parts of an HTTP response for check_response. -/
structure ServerResp where
  status_code : ℕ
  status_field : Option ℕ
  content : String

/-- Embedding of degiroasync.core.helpers.check_response: a 400 with
the bad-credentials status payload raises BadCredentialsError, any
other non-200/201 status raises ResponseError, otherwise no error. -/
def check_response (r : ServerResp) : Option RaisedError :=
  if r.status_code = 400 ∧ r.status_field = some LOGIN_BAD_CREDENTIALS then
    some ⟨PyExcType.badCredentialsError,
      "Bad Credentials. Reponse content: " ++ r.content⟩
  else if r.status_code ≠ 200 ∧ r.status_code ≠ 201 then
    some ⟨PyExcType.responseError, "Error on call: " ++ r.content⟩
  else none

/-- The error raised when the lockout aborts a login attempt. -/
def loginLockoutError : RaisedError :=
  ⟨PyExcType.badCredentialsError,
    "Abort. Login previously failed with these credentials."
      ++ " Provide `safeguard_incorrect_credentials=False` "
      ++ "if you want to override this behavior."⟩

/-- Observable outcome of one api.login attempt: the raised error if
any, the login-failure set afterwards, and whether the server was
reached. -/
structure LoginOutcome where
  error : Option RaisedError
  failures : List ℕ
  serverCalled : Bool
  deriving DecidableEq

/-- Embedding of degiroasync.api.session.login with
safeguard_incorrect_credentials as an argument: fingerprints are
naturals, server is the response oracle, failures the current
_LOGIN_FAILURE_HASH, and the clock argument is ignored exactly as the
source never reads a clock on this path. -/
def api_login (server : ℕ → ServerResp) (safeguard : Bool)
    (failures : List ℕ) (_now : ℕ) (c : ℕ) : LoginOutcome :=
  if safeguard ∧ c ∈ failures then
    { error := some loginLockoutError, failures := failures,
      serverCalled := false }
  else
    match check_response (server c) with
    | some e =>
        if e.etype = PyExcType.badCredentialsError then
          { error := some e, failures := c :: failures, serverCalled := true }
        else
          { error := some e, failures := failures, serverCalled := true }
    | none => { error := none, failures := failures, serverCalled := true }

/-- Claim C7 (code divergence): once a fingerprint is in the failure
set, a retry with safeguard on is aborted with the lockout error and
never reaches the server, no matter how much more than
_LOGIN_FAILURE_MINTIME has elapsed — the set is never pruned and the
time-bucketed _should_fail is dead code, so the lockout never expires. -/
theorem login_lockout_never_expires (server : ℕ → ServerResp)
    (failures : List ℕ) (c : ℕ) (tfail tretry : ℕ)
    (hmem : c ∈ failures)
    (_hlate : tfail + _LOGIN_FAILURE_MINTIME < tretry) :
    (api_login server true failures tretry c).error = some loginLockoutError
    ∧ (api_login server true failures tretry c).serverCalled = false := by
  unfold api_login
  rw [if_pos ⟨rfl, hmem⟩]
  exact ⟨rfl, rfl⟩

/-- Witness for C7: credentials failing at t = 0 against an
always-reject server are still blocked at t = 4 hours, without any
server call. -/
theorem login_lockout_never_expires_witness :
    ((api_login (fun _ => ⟨400, some 3, "resp"⟩) true [] 0 7).failures = [7])
    ∧ ((api_login (fun _ => ⟨400, some 3, "resp"⟩) true [7] 14400 7).error
        = some loginLockoutError
      ∧ (api_login (fun _ => ⟨400, some 3, "resp"⟩) true [7] 14400 7
          ).serverCalled = false) := by
  refine ⟨by decide, ?_⟩
  exact login_lockout_never_expires (fun _ => ⟨400, some 3, "resp"⟩) [7] 7
    0 14400 (by decide) (by decide)

/-- Counterexample for C8: the lockout abort and the server rejection
raise errors of the same class (both BadCredentialsError), so the two
conditions are not distinguishable by a distinct type or named
condition. -/
theorem login_lockout_error_counterexample :
    (api_login (fun _ => ⟨400, some 3, "r"⟩) true [7] 0 7).error.map
        RaisedError.etype
      = (api_login (fun _ => ⟨400, some 3, "r"⟩) true [] 0 7).error.map
          RaisedError.etype
    ∧ (api_login (fun _ => ⟨400, some 3, "r"⟩) true [7] 0 7).error.map
        RaisedError.etype = some PyExcType.badCredentialsError := by
  constructor <;> rfl

/-- Claim C8 (amended): the lockout abort and a server bad-credentials
rejection both raise BadCredentialsError; a caller can tell them apart
only by the message text (the lockout message, fixed, differs from
every server-rejection message), not by the exception type. -/
theorem login_lockout_error_amended (server : ℕ → ServerResp)
    (failures : List ℕ) (now c : ℕ) :
    (c ∈ failures →
        (api_login server true failures now c).error
          = some loginLockoutError)
    ∧ (c ∉ failures → (server c).status_code = 400 →
        (server c).status_field = some LOGIN_BAD_CREDENTIALS →
        (api_login server true failures now c).error
          = some ⟨PyExcType.badCredentialsError,
              "Bad Credentials. Reponse content: " ++ (server c).content⟩)
    ∧ (∀ content : String,
        "Bad Credentials. Reponse content: " ++ content
          ≠ loginLockoutError.msg) := by
  refine ⟨?_, ?_, ?_⟩
  · intro hmem
    unfold api_login
    rw [if_pos ⟨rfl, hmem⟩]
  · intro hnot hsc hsf
    unfold api_login
    rw [if_neg (by intro hcon; exact hnot hcon.2)]
    unfold check_response
    rw [if_pos ⟨hsc, hsf⟩]
    rfl
  · intro content hcontra
    have h2 := congrArg String.data hcontra
    rw [String.data_append] at h2
    have h3 := congrArg (fun l => l.take 3) h2
    simp only at h3
    rw [List.take_append_of_le_length (by decide)] at h3
    exact absurd h3 (by decide)

/-- Witness for C8 (amended): against a bad-credentials server, a fresh
attempt raises the server-side BadCredentialsError and a locked-out
attempt raises the lockout BadCredentialsError, with different
messages. -/
theorem login_lockout_error_amended_witness :
    (api_login (fun _ => ⟨400, some 3, "r"⟩) true [] 0 7).error
      = some ⟨PyExcType.badCredentialsError,
          "Bad Credentials. Reponse content: " ++ "r"⟩
    ∧ "Bad Credentials. Reponse content: " ++ "r"
        ≠ loginLockoutError.msg := by
  have h := login_lockout_error_amended (fun _ => ⟨400, some 3, "r"⟩)
    [] 0 7
  exact ⟨h.2.1 (by decide) rfl rfl, h.2.2 "r"⟩

end Degiroasync
